import Mathlib

/-!
Verification development for the `error_detect` document-processing pipeline.

The Python source (`Error_detect/server/document_processor.py`,
`Error_detect/model/Structure_model.py`, `server/LLM_Client.py`) is shallowly
embedded here.  Python strings are modelled as `List Char`; the external LLM
call is modelled as an oracle parameter; fallible operations return
`Option`/`Except`.
-/

/-- Whitespace predicate used by Python's `str.strip()` / `str.isspace()`
(ASCII fragment: space, tab, newline, carriage return, vertical tab, form feed). -/
def isWs (c : Char) : Bool :=
  c = ' ' || c = '\t' || c = '\n' || c = '\r' || c = Char.ofNat 11 || c = Char.ofNat 12

/-- Sentence-terminator class of `_split_sentences`: the regex `[.!?。！？]`. -/
def isTerm (c : Char) : Bool :=
  c = '.' || c = '!' || c = '?' || c = '。' || c = '！' || c = '？'

/-- Python `str.strip()`: drop whitespace from both ends. -/
def strip (s : List Char) : List Char :=
  ((s.dropWhile isWs).reverse.dropWhile isWs).reverse

/-- Python `str.split(sep)` for a two-character separator `[a, b]`
(used for `text.split('\n\n')` in `_chunk_text`): leftmost, non-overlapping cuts. -/
def splitSep2 (a b : Char) : List Char → List (List Char)
  | [] => [[]]
  | [c] => [[c]]
  | c :: d :: rest =>
    if c = a ∧ d = b then [] :: splitSep2 a b rest
    else
      match splitSep2 a b (d :: rest) with
      | [] => [[c]]
      | h :: t => (c :: h) :: t

/-- `text.split('\n\n')`: the paragraph split of `_chunk_text`. -/
def splitParas (text : List Char) : List (List Char) :=
  splitSep2 '\n' '\n' text

/-- `re.split(r'[.!?。！？]', text)`: the fragments between sentence terminators. -/
def splitTerm : List Char → List (List Char)
  | [] => [[]]
  | c :: rest =>
    if isTerm c then [] :: splitTerm rest
    else
      match splitTerm rest with
      | [] => [[c]]
      | h :: t => (c :: h) :: t

/-- The `for i, sentence in enumerate(sentences)` loop of `_split_sentences`:
keep each fragment whose strip is non-empty, re-attaching the `i`-th found
terminator when one exists (`i < len(punctuation_marks)`). -/
def attachMarks : List (List Char) → List Char → List (List Char)
  | [], _ => []
  | f :: fs, [] =>
    (if strip f ≠ [] then [strip f] else []) ++ attachMarks fs []
  | f :: fs, m :: ms =>
    (if strip f ≠ [] then [strip f ++ [m]] else []) ++ attachMarks fs ms

/-- `DocumentProcessor._split_sentences`: split on terminators (`re.split`),
collect the terminators in order (`re.findall`), strip and re-terminate the
non-blank fragments, falling back to `[text]` when nothing survives. -/
def splitSentences (text : List Char) : List (List Char) :=
  if attachMarks (splitTerm text) (text.filter isTerm) ≠ [] then
    attachMarks (splitTerm text) (text.filter isTerm)
  else [text]

/-- Accumulator of the `_chunk_text` loop: the completed chunks plus the
`current_chunk` buffer. -/
structure ChunkSt where
  chunks : List (List Char)
  cur : List Char
deriving DecidableEq

/-- `if current_chunk: chunks.append(current_chunk.strip())` — flush the buffer. -/
def flushChunks (st : ChunkSt) : List (List Char) :=
  if st.cur = [] then st.chunks else st.chunks ++ [strip st.cur]

/-- The inner `for sentence in sentences` loop body of `_chunk_text`
(oversized-paragraph path): append space-separated, else flush and restart. -/
def stepSentence (maxL : Nat) (st : ChunkSt) (s : List Char) : ChunkSt :=
  if st.cur.length + s.length ≤ maxL then ⟨st.chunks, st.cur ++ ' ' :: s⟩
  else ⟨flushChunks st, s⟩

/-- The `for paragraph in paragraphs` loop body of `_chunk_text`: short
paragraphs (< 100 chars) and moderate paragraphs merge with a blank-line
separator or flush; a paragraph longer than the maximum is sentence-split and
folded through `stepSentence`. -/
def stepPara (maxL : Nat) (st : ChunkSt) (p : List Char) : ChunkSt :=
  if p.length < 100 then
    if st.cur.length + p.length ≤ maxL then ⟨st.chunks, st.cur ++ '\n' :: '\n' :: p⟩
    else ⟨flushChunks st, p⟩
  else if maxL < p.length then
    (splitSentences p).foldl (stepSentence maxL) st
  else
    if st.cur.length + p.length ≤ maxL then ⟨st.chunks, st.cur ++ '\n' :: '\n' :: p⟩
    else ⟨flushChunks st, p⟩

/-- `DocumentProcessor._chunk_text`: short-circuit on text within the maximum,
otherwise fold the paragraphs through `stepPara` and flush the final buffer. -/
def chunkText (maxL : Nat) (text : List Char) : List (List Char) :=
  if text.length ≤ maxL then [text]
  else flushChunks ((splitParas text).foldl (stepPara maxL) ⟨[], []⟩)

/-! ## Knowledge-graph data model (`model/Structure_model.py`) -/

/-- `SeverityLevel` enum. -/
inductive SeverityLevel where
  | mild
  | moderate
  | severe
deriving DecidableEq

/-- `BearingFaultType` entity. -/
structure BearingFaultType where
  name : List Char
  severity : Option SeverityLevel
  caused_by : List (List Char)
  manifests_as : List (List Char)
  has_feature_frequency : List (List Char)
  detected_by : List (List Char)
deriving DecidableEq

/-- `FaultCause` entity. -/
structure FaultCause where
  name : List Char
  produces : List (List Char)
  effect_description : Option (List Char)
deriving DecidableEq

/-- `SignalFeature` entity. -/
structure SignalFeature where
  name : List Char
  frequency_band : Option (List Char)
  associated_faults : List (List Char)
  influenced_by : List (List Char)
deriving DecidableEq

/-- `CharacteristicFrequency` entity. -/
structure CharacteristicFrequency where
  name : List Char
  formula : Option (List Char)
  depends_on : List (List Char)
  associated_fault : Option (List Char)
deriving DecidableEq

/-- `DiagnosisMethod` entity. -/
structure DiagnosisMethod where
  name : List Char
  frequency_band : Option (List Char)
  advantage : Option (List Char)
  limitation : Option (List Char)
  detects_faults : List (List Char)
  influenced_by : List (List Char)
deriving DecidableEq

/-- `InfluencingFactor` entity. -/
structure InfluencingFactor where
  name : List Char
  effect_description : Option (List Char)
  influences : List (List Char)
deriving DecidableEq

/-- `BearingFaultKnowledgeGraphEntry`: at most one of each of the six fact
categories. -/
structure KnowledgeGraphEntry where
  fault_type : Option BearingFaultType
  cause : Option FaultCause
  signal_feature : Option SignalFeature
  frequency : Option CharacteristicFrequency
  diagnosis_method : Option DiagnosisMethod
  influencing_factor : Option InfluencingFactor
deriving DecidableEq

/-- `BearingFaultKnowledgeGraph`: the per-chunk extraction result. -/
structure KnowledgeGraph where
  entries : List KnowledgeGraphEntry
deriving DecidableEq

/-! ## Context summarizer (`DocumentProcessor._summarize_key_info`) -/

/-- The six `if entry.<fact>: summary_parts.append(f"<label>: {...name}")`
tests of `_summarize_key_info`, in source order. -/
def entrySummary (e : KnowledgeGraphEntry) : List (List Char) :=
  (match e.fault_type with
   | some ft => ["故障类型: ".data ++ ft.name]
   | none => []) ++
  (match e.cause with
   | some c => ["故障原因: ".data ++ c.name]
   | none => []) ++
  (match e.signal_feature with
   | some sf => ["信号特征: ".data ++ sf.name]
   | none => []) ++
  (match e.frequency with
   | some fr => ["特征频率: ".data ++ fr.name]
   | none => []) ++
  (match e.diagnosis_method with
   | some dm => ["诊断方法: ".data ++ dm.name]
   | none => []) ++
  (match e.influencing_factor with
   | some inf => ["影响因素: ".data ++ inf.name]
   | none => [])

/-- `summary_parts` accumulated over all entries. -/
def summaryParts (kg : KnowledgeGraph) : List (List Char) :=
  (kg.entries.map entrySummary).flatten

/-- Python `"; ".join(parts)`. -/
def joinSemi : List (List Char) → List Char
  | [] => []
  | [p] => p
  | p :: q :: rest => p ++ ';' :: ' ' :: joinSemi (q :: rest)

/-- The `if len(summary) > 500: summary = summary[:497] + "..."` reassignment
of `_summarize_key_info`. -/
def truncateSummary (s : List Char) : List Char :=
  if 500 < s.length then s.take 497 ++ "...".data else s

/-- `DocumentProcessor._summarize_key_info`: join with `"; "`, truncate to 497
characters plus `"..."` when longer than 500, and substitute the fixed
`"暂无关键信息"` sentinel for an empty summary
(`return summary if summary else "暂无关键信息"`). -/
def summarizeKeyInfo (kg : KnowledgeGraph) : List Char :=
  if truncateSummary (joinSemi (summaryParts kg)) ≠ [] then
    truncateSummary (joinSemi (summaryParts kg))
  else "暂无关键信息".data

/-! ## Prompt builder (`DocumentProcessor._create_efficient_prompt`)

`format_instructions` is generated externally (a JSON schema dump of the
pydantic model, `Structure_model.py` line 133); the spec treats it as a stable
opaque string, so the prompt builder takes it as the parameter `fi`. -/

/-- The fixed part of `base_prompt` before `{format_instructions}`. -/
def promptHead : List Char :=
  ("你是一个专业的知识图谱构建助手。你的任务是从技术文档中提取结构化的轴承故障相关信息，\n并将它们组织成知识图谱的形式。\n\n请仔细阅读以下文档片段，并提取其中的轴承故障相关信息。你需要识别：\n1. 轴承故障类型及其属性（名称、严重程度等）\n2. 故障原因及其影响\n3. 故障在信号中的表现形式\n4. 特征频率信息\n5. 诊断方法\n6. 影响因素\n\n请严格按照以下JSON格式输出，不要添加任何额外的文字说明：\n\n").data

/-- The fixed part of `base_prompt` between `{format_instructions}` and
`{text_chunk}`. -/
def promptMid : List Char := "\n\n文档内容：\n".data

/-- The fixed part of `base_prompt` after `{text_chunk}`. -/
def promptTail : List Char := "\n\n".data

/-- The fixed part of `context_prompt` before `{previous_context}`. -/
def ctxHead : List Char := "\n重要上下文信息（请参考但不要重复提取）：\n".data

/-- The fixed part of `context_prompt` after `{previous_context}`. -/
def ctxTail : List Char :=
  "\n\n请基于以上上下文信息和当前文档内容，提取新增的或不同的信息。\n".data

/-- `DocumentProcessor._create_efficient_prompt`: the base prompt, plus the
context block when `previous_context` is truthy (Python: `None` and the empty
string are both falsy). -/
def createEfficientPrompt (fi : List Char) (chunk : List Char)
    (prev : Option (List Char)) : List Char :=
  let base := promptHead ++ fi ++ promptMid ++ chunk ++ promptTail
  match prev with
  | none => base
  | some ctx => if ctx = [] then base else base ++ ctxHead ++ ctx ++ ctxTail

/-! ## Extraction orchestrator (`DocumentProcessor._extract_knowledge_graph`)

The external LLM capability (`server/LLM_Client.py`) is a collaborator: its
per-invocation outcome is modelled as an oracle `Nat → List Char → Option
KnowledgeGraph` taking the invocation index (the loop's `enumerate` counter)
and the prompt, returning `none` when the call raises. -/

/-- The constructed client of `LLMClient.__init__`: just its callable. -/
structure LLMClient where
  call : Nat → List Char → Option KnowledgeGraph

/-- `LLMClient.__init__`: reads `API_KEY` from the environment and raises
`ValueError` when it is missing or empty (Python falsy). -/
def llmClientInit (apiKey : Option (List Char))
    (call : Nat → List Char → Option KnowledgeGraph) : Option LLMClient :=
  match apiKey with
  | none => none
  | some k => if k = [] then none else some ⟨call⟩

/-- The `for i, chunk in enumerate(chunks)` loop of `_extract_knowledge_graph`:
build the prompt from the chunk and `previous_context`, call the client, and on
success append the result and refresh the context; on failure `continue` with
the context unchanged. -/
def extractLoop (f : Nat → List Char → Option KnowledgeGraph) (fi : List Char) :
    Nat → Option (List Char) → List (List Char) → List KnowledgeGraph
  | _, _, [] => []
  | i, prev, c :: cs =>
    match f i (createEfficientPrompt fi c prev) with
    | some kg => kg :: extractLoop f fi (i + 1) (some (summarizeKeyInfo kg)) cs
    | none => extractLoop f fi (i + 1) prev cs

/-- One iteration of the orchestrator loop, as observed for verification: the
chunk index, the prompt that was built for it, and the call's outcome. -/
structure Attempt where
  idx : Nat
  prompt : List Char
  result : Option KnowledgeGraph
deriving DecidableEq

/-- Ghost trace of `extractLoop`: the same recursion, recording every attempt
(prompt built and call outcome) instead of only the successful results. -/
def extractAttempts (f : Nat → List Char → Option KnowledgeGraph)
    (fi : List Char) :
    Nat → Option (List Char) → List (List Char) → List Attempt
  | _, _, [] => []
  | i, prev, c :: cs =>
    let p := createEfficientPrompt fi c prev
    match f i p with
    | some kg => ⟨i, p, some kg⟩ :: extractAttempts f fi (i + 1) (some (summarizeKeyInfo kg)) cs
    | none => ⟨i, p, none⟩ :: extractAttempts f fi (i + 1) prev cs

/-- `DocumentProcessor._extract_knowledge_graph`: construct the client
(returning `[]` when `LLMClient.__init__` raises) and run the per-chunk loop. -/
def extractKnowledgeGraph (apiKey : Option (List Char))
    (call : Nat → List Char → Option KnowledgeGraph) (fi : List Char)
    (chunks : List (List Char)) : List KnowledgeGraph :=
  match llmClientInit apiKey call with
  | none => []
  | some client => extractLoop client.call fi 0 none chunks

/-- Ghost trace of `_extract_knowledge_graph`: the chunk-level call attempts
actually made (none at all when client construction fails). -/
def extractAttemptsTop (apiKey : Option (List Char))
    (call : Nat → List Char → Option KnowledgeGraph) (fi : List Char)
    (chunks : List (List Char)) : List Attempt :=
  match llmClientInit apiKey call with
  | none => []
  | some client => extractAttempts client.call fi 0 none chunks

/-! ## Document entry point (`DocumentProcessor.process_document`)

The file system and the per-format parsers are collaborators: `fileExists`
models `os.path.exists`, `ext` the result of `os.path.splitext`, and
`parseResult` the outcome of `parser.parse(file_path)` (`none` when it
raises, in which case the generic `except` clause re-raises). -/

/-- The errors `process_document` can raise: `FileNotFoundError`, the
`ValueError` for an unsupported extension, and the generic wrapping
`Exception`. -/
inductive DocError where
  | fileNotFound (path : List Char)
  | unsupportedFormat (ext : List Char)
  | processingError
deriving DecidableEq

/-- The keys of `self.parsers` installed by `DocumentProcessor.__init__`. -/
def supportedExts : List (List Char) :=
  [".md".data, ".txt".data, ".docx".data]

/-- The result dict of `process_document`. -/
structure ProcessOutput where
  original_file : List Char
  text_content : List Char
  chunks : List (List Char)
  knowledge_graph : List KnowledgeGraph
deriving DecidableEq

/-- `DocumentProcessor.process_document`: missing file and unsupported
extension raise before the `try` block; a parse failure is wrapped into the
generic processing error; otherwise chunking and extraction run (neither ever
raises) and the result dict is returned. -/
def processDocument (fileExists : Bool) (path ext : List Char)
    (parseResult : Option (List Char)) (maxL : Nat)
    (apiKey : Option (List Char))
    (call : Nat → List Char → Option KnowledgeGraph) (fi : List Char) :
    Except DocError ProcessOutput :=
  if fileExists = false then .error (.fileNotFound path)
  else if ext.map Char.toLower ∈ supportedExts then
    match parseResult with
    | none => .error .processingError
    | some text =>
      .ok ⟨path, text, chunkText maxL text,
           extractKnowledgeGraph apiKey call fi (chunkText maxL text)⟩
  else .error (.unsupportedFormat (ext.map Char.toLower))

/-! ## LLM response parsing (`JsonOutputParser.parse`)

`json.loads` and the pydantic constructor are external library calls; they are
modelled as parameters: `decode` returns `some` decoded value exactly when
`json.loads` succeeds, and `validate` returns `.error` exactly when the
pydantic constructor (`self.pydantic_object(**data)`) raises.  Note the source
catches only `json.JSONDecodeError`, so a `validate` failure propagates. -/

/-- The character `{`. -/
def lbrace : Char := Char.ofNat 123

/-- The character `}`. -/
def rbrace : Char := Char.ofNat 125

/-- `re.search(r'\x7b.*\x7d', text, re.DOTALL)`: the span from the first `{`
to the last `}`, when the first `{` precedes the last `}`. -/
def braceSpan (s : List Char) : Option (List Char) :=
  let i := s.indexOf lbrace
  let j := s.length - 1 - s.reverse.indexOf rbrace
  if lbrace ∈ s ∧ rbrace ∈ s ∧ i < j then some ((s.take (j + 1)).drop i)
  else none

/-- `JsonOutputParser.parse`: decode the whole text, else decode the
outermost-brace span, else return the empty-entries graph.  A value that
decodes but fails validation raises (only `json.JSONDecodeError` is caught). -/
def jsonParse {J : Type} (decode : List Char → Option J)
    (validate : J → Except Unit KnowledgeGraph) (text : List Char) :
    Except Unit KnowledgeGraph :=
  match decode text with
  | some v => validate v
  | none =>
    match braceSpan text with
    | some sp =>
      match decode sp with
      | some v => validate v
      | none => .ok ⟨[]⟩
    | none => .ok ⟨[]⟩

/-! ## Reconstruction helpers (verification apparatus)

These describe how the split functions relate to the original text; they are
used to state and prove the reconstruction properties. -/

/-- Interleave split fragments with the terminator marks that separated them:
`joinTerm [f0, ..., fn] [m0, ..., m(n-1)]` is `f0, m0, f1, m1, ..., m(n-1), fn`.
`joinTerm (splitTerm s) (s.filter isTerm) = s`, so mark `i` is exactly the
character that ended fragment `i` in the source. -/
def joinTerm : List (List Char) → List Char → List Char
  | [], _ => []
  | f :: _, [] => f
  | f :: fs, m :: ms => f ++ m :: joinTerm fs ms

/-- Interleave paragraphs with the `"\n\n"` separator they were split on. -/
def joinParas : List (List Char) → List Char
  | [] => []
  | [p] => p
  | p :: q :: rest => p ++ '\n' :: '\n' :: joinParas (q :: rest)

/-- Characters counted as content when comparing the chunker's output with
its input: everything except whitespace (normalized at flush boundaries) and
sentence terminators (droppable by the splitter). -/
def keepChar (c : Char) : Bool := !isWs c && !isTerm c

/-- Size invariant of the `_chunk_text` loop (verification apparatus): each
completed chunk is within `maxL + 2` or is a stripped sentence of some
oversized paragraph, and the buffer is within `maxL + 2` or is itself a
sentence of some oversized paragraph. -/
def ChunkSizeInv (maxL : Nat) (paras : List (List Char)) (st : ChunkSt) : Prop :=
  (∀ c ∈ st.chunks, c.length ≤ maxL + 2 ∨
    ∃ p ∈ paras, maxL < p.length ∧ ∃ s ∈ splitSentences p, c = strip s) ∧
  (st.cur.length ≤ maxL + 2 ∨
    ∃ p ∈ paras, maxL < p.length ∧ st.cur ∈ splitSentences p)

/-! ## Concrete inputs used by witnesses and counterexamples -/

/-- Input refuting the claimed chunk-size bound at maximum 10: three short
paragraphs; the separator characters are not counted by the size check, so the
second emitted chunk has 12 > 10 characters without any oversized sentence
involved. -/
def cexSize : List Char := "cccccccccc\n\naaaaa\n\nbbbbb".data

/-- Input refuting exact reconstruction at maximum 100: one 101-character
paragraph containing a double period; the sentence splitter drops the second
terminator (its fragment is empty). -/
def cexRecon : List Char := "aa..".data ++ List.replicate 97 'b'


/-- A knowledge graph whose digest must be truncated: one fault-type entry
with a 600-character name. -/
def kgLong : KnowledgeGraph :=
  ⟨[⟨some ⟨List.replicate 600 'x', none, [], [], [], []⟩, none, none, none, none, none⟩]⟩

/-- The spec's scenario response: prose with one embedded structure. -/
def proseResponse : List Char :=
  "Here is the result: \x7b\"entries\":[]\x7d Thanks.".data

/-- The outermost-brace span inside `proseResponse`. -/
def embeddedSpan : List Char := "\x7b\"entries\":[]\x7d".data

/-- Models `json.loads` on the scenario input: the whole prose is not valid
JSON; the embedded span is. -/
def decodeScenario : List Char → Option Unit :=
  fun s => if s = embeddedSpan then some () else none

/-- Models the pydantic constructor on the scenario input: `{"entries":[]}`
validates into the empty-entries graph. -/
def validateScenario : Unit → Except Unit KnowledgeGraph :=
  fun _ => .ok ⟨[]⟩

/-- A response that is valid JSON of the wrong shape: `json.loads` succeeds on
`{"entries": 5}` but the pydantic constructor raises a validation error. -/
def badJsonResponse : List Char := "\x7b\"entries\": 5\x7d".data

/-- Models `json.loads` at `badJsonResponse`: decoding succeeds. -/
def decodeBad : List Char → Option Unit :=
  fun s => if s = badJsonResponse then some () else none

/-- Models the pydantic constructor at `badJsonResponse`'s decoded value:
validation raises (`entries` is not a list), and `parse` catches only
`json.JSONDecodeError`, so the error escapes. -/
def validateBad : Unit → Except Unit KnowledgeGraph :=
  fun _ => .error ()

/-- An oracle that fails exactly on invocation index 1. -/
def oracleSkip1 : Nat → List Char → Option KnowledgeGraph :=
  fun i _ => if i = 1 then none else some ⟨[]⟩

/-- An oracle that always succeeds with the empty graph. -/
def oracleOk : Nat → List Char → Option KnowledgeGraph := fun _ _ => some ⟨[]⟩

/-- A one-entry graph used to distinguish digests in the counterexample. -/
def kgMark : KnowledgeGraph :=
  ⟨[⟨some ⟨"磨损".data, none, [], [], [], []⟩, none, none, none, none, none⟩]⟩

/-- An oracle whose call for chunk index 1 fails and that returns `kgMark`
elsewhere. -/
def oracleFail1 : Nat → List Char → Option KnowledgeGraph :=
  fun i _ => if i = 1 then none else some kgMark

/-- The three-chunk input of the C8 counterexample. -/
def chunksABC : List (List Char) := ["a".data, "b".data, "c".data]

/-! ## C6: the context digest bound -/

/-- C6: for every `KnowledgeGraphResult`, the Context Summarizer's output
digest has length ≤ 500 characters; if the semicolon-joined summary exceeds
500 characters it is truncated to its first 497 characters with the ellipsis
marker appended (so the result ends with the marker); a joined summary of
exactly 500 characters is returned untruncated. -/
theorem summarize_digest_bound (kg : KnowledgeGraph) :
    (summarizeKeyInfo kg).length ≤ 500 ∧
    (500 < (joinSemi (summaryParts kg)).length →
      summarizeKeyInfo kg = (joinSemi (summaryParts kg)).take 497 ++ "...".data ∧
      ∃ pre, summarizeKeyInfo kg = pre ++ "...".data) ∧
    ((joinSemi (summaryParts kg)).length = 500 →
      summarizeKeyInfo kg = joinSemi (summaryParts kg)) := by
  unfold summarizeKeyInfo truncateSummary
  set j := joinSemi (summaryParts kg) with hj
  by_cases h : 500 < j.length
  · have hlen : (j.take 497 ++ "...".data).length = 500 := by
      have h3 : ("...".data).length = 3 := rfl
      have ht : (j.take 497).length = 497 := by
        rw [List.length_take]
        omega
      rw [List.length_append, ht, h3]
    have htr : j.take 497 ++ "...".data ≠ [] := by
      intro hc
      rw [hc] at hlen
      simp at hlen
    rw [if_pos h, if_pos htr]
    exact ⟨by omega, fun _ => ⟨rfl, ⟨j.take 497, rfl⟩⟩, fun h500 => by omega⟩
  · rw [if_neg h]
    by_cases hne : j = []
    · rw [if_neg (by simp [hne])]
      refine ⟨by decide, fun hc => ?_, fun hc => ?_⟩ <;>
        · rw [hne] at hc
          simp at hc
    · rw [if_pos hne]
      exact ⟨by omega, fun hc => absurd hc h, fun _ => rfl⟩

set_option maxRecDepth 4000 in
/-- Witness for C6 at `kgLong`: the joined summary has 606 characters, so the
digest is the 497-character cut plus the ellipsis marker. -/
theorem summarize_digest_bound_witness :
    500 < (joinSemi (summaryParts kgLong)).length ∧
    (summarizeKeyInfo kgLong =
      (joinSemi (summaryParts kgLong)).take 497 ++ "...".data ∧
     ∃ pre, summarizeKeyInfo kgLong = pre ++ "...".data) :=
  ⟨by decide, (summarize_digest_bound kgLong).2.1 (by decide)⟩

/-! ## C4: client construction failure aborts the run with an empty result -/

/-- C4: if construction of the extraction capability fails (the `API_KEY`
environment variable is absent or empty, so `LLMClient.__init__` raises), the
orchestrator returns an empty result sequence and attempts no chunk-level
call. -/
theorem extract_init_failure_empty (apiKey : Option (List Char))
    (call : Nat → List Char → Option KnowledgeGraph) (fi : List Char)
    (chunks : List (List Char)) (h : apiKey = none ∨ apiKey = some []) :
    extractKnowledgeGraph apiKey call fi chunks = [] ∧
    extractAttemptsTop apiKey call fi chunks = [] := by
  rcases h with h | h <;> subst h <;>
    simp [extractKnowledgeGraph, extractAttemptsTop, llmClientInit]

/-- Witness for C4: a missing `API_KEY` with a one-chunk input. -/
theorem extract_init_failure_empty_witness :
    ((none : Option (List Char)) = none ∨ (none : Option (List Char)) = some []) ∧
    (extractKnowledgeGraph none (fun _ _ => some ⟨[]⟩) [] ["a".data] = [] ∧
     extractAttemptsTop none (fun _ _ => some ⟨[]⟩) [] ["a".data] = []) :=
  ⟨Or.inl rfl, extract_init_failure_empty none _ _ _ (Or.inl rfl)⟩

/-! ## C7: tolerance of the LLM-response parser -/

/-- C7 (amended): provided every successfully decoded JSON value validates as
the expected structure, `JsonOutputParser.parse` always returns a result: the
whole text's decode is used directly when it succeeds; otherwise the
first-`{`-to-last-`}` span is decoded; and when that fails too (or no such
span exists) the empty-entries graph is substituted.  (As stated the claim is
false: a decode success whose validation fails propagates, because only
`json.JSONDecodeError` is caught — see the counterexample.) -/
theorem json_parse_tolerant {J : Type} (decode : List Char → Option J)
    (validate : J → Except Unit KnowledgeGraph) (text : List Char)
    (hval : ∀ v, ∃ kg, validate v = .ok kg) :
    (∃ kg, jsonParse decode validate text = .ok kg) ∧
    (∀ v, decode text = some v → jsonParse decode validate text = validate v) ∧
    (decode text = none → ∀ sp v, braceSpan text = some sp → decode sp = some v →
      jsonParse decode validate text = validate v) ∧
    (decode text = none → braceSpan text = none →
      jsonParse decode validate text = .ok ⟨[]⟩) ∧
    (decode text = none → ∀ sp, braceSpan text = some sp → decode sp = none →
      jsonParse decode validate text = .ok ⟨[]⟩) := by
  refine ⟨?_, ?_, ?_, ?_, ?_⟩
  · cases hd : decode text with
    | some v =>
      simp only [jsonParse, hd]
      exact hval v
    | none =>
      cases hb : braceSpan text with
      | some sp =>
        cases hd2 : decode sp with
        | some v =>
          simp only [jsonParse, hd, hb, hd2]
          exact hval v
        | none => exact ⟨⟨[]⟩, by simp only [jsonParse, hd, hb, hd2]⟩
      | none => exact ⟨⟨[]⟩, by simp only [jsonParse, hd, hb]⟩
  · intro v hd
    simp only [jsonParse, hd]
  · intro hd sp v hb hd2
    simp only [jsonParse, hd, hb, hd2]
  · intro hd hb
    simp only [jsonParse, hd, hb]
  · intro hd sp hb hd2
    simp only [jsonParse, hd, hb, hd2]

/-- Witness for C7 on the spec's scenario: the parser locates the outermost
`{...}` span of the prose response and parses it into an empty-entries
result. -/
theorem json_parse_tolerant_witness :
    (∀ v, ∃ kg, validateScenario v = .ok kg) ∧
    (decodeScenario proseResponse = none ∧
     braceSpan proseResponse = some embeddedSpan ∧
     jsonParse decodeScenario validateScenario proseResponse = validateScenario ()) :=
  ⟨fun _ => ⟨⟨[]⟩, rfl⟩,
   by decide,
   by decide,
   (json_parse_tolerant decodeScenario validateScenario proseResponse
      (fun _ => ⟨⟨[]⟩, rfl⟩)).2.2.1 (by decide) embeddedSpan () (by decide) (by decide)⟩

/-- Counterexample to C7 as stated: on `{"entries": 5}` the parser does not
return a `KnowledgeGraphResult` — the uncaught validation error fails the
chunk. -/
theorem json_parse_counterexample :
    jsonParse decodeBad validateBad badJsonResponse = .error () := by
  rfl

/-! ## C5: error propagation of `process_document` -/

/-- C5 (amended): input errors (missing file, unsupported extension,
unreadable/unparseable file) surface to the caller as explicit failures, and
per-chunk recoverable errors are absorbed and only affect the completeness of
the knowledge-graph sequence — but a fatal construction failure of the
extraction capability does *not* surface: `_extract_knowledge_graph` catches
it and the call returns normally with an empty knowledge-graph sequence (see
the counterexample). -/
theorem process_document_propagation (path ext : List Char)
    (parseResult : Option (List Char)) (maxL : Nat)
    (apiKey : Option (List Char))
    (call : Nat → List Char → Option KnowledgeGraph) (fi : List Char) :
    (processDocument false path ext parseResult maxL apiKey call fi =
      .error (.fileNotFound path)) ∧
    (ext.map Char.toLower ∉ supportedExts →
      processDocument true path ext parseResult maxL apiKey call fi =
        .error (.unsupportedFormat (ext.map Char.toLower))) ∧
    (ext.map Char.toLower ∈ supportedExts →
      processDocument true path ext none maxL apiKey call fi =
        .error .processingError) ∧
    (∀ text, parseResult = some text →
      ext.map Char.toLower ∈ supportedExts →
      (apiKey = none ∨ apiKey = some []) →
      processDocument true path ext parseResult maxL apiKey call fi =
        .ok ⟨path, text, chunkText maxL text, []⟩) ∧
    (∀ text, parseResult = some text →
      ext.map Char.toLower ∈ supportedExts →
      ∃ out, processDocument true path ext parseResult maxL apiKey call fi = .ok out ∧
        out.knowledge_graph =
          extractKnowledgeGraph apiKey call fi (chunkText maxL text)) := by
  refine ⟨by simp [processDocument], ?_, ?_, ?_, ?_⟩
  · intro hext
    simp [processDocument, hext]
  · intro hext
    simp [processDocument, hext]
  · intro text hp hext hkey
    subst hp
    have hkg : extractKnowledgeGraph apiKey call fi (chunkText maxL text) = [] := by
      rcases hkey with h | h <;> subst h <;>
        simp [extractKnowledgeGraph, llmClientInit]
    simp [processDocument, hext, hkg]
  · intro text hp hext
    subst hp
    refine ⟨⟨path, text, chunkText maxL text,
             extractKnowledgeGraph apiKey call fi (chunkText maxL text)⟩, ?_, rfl⟩
    simp [processDocument, hext]

/-- Witness for C5: a readable `.txt` document with an empty `API_KEY`; the
call returns normally with an empty knowledge-graph list. -/
theorem process_document_propagation_witness :
    ((some "hello".data) = some "hello".data ∧
     ".txt".data.map Char.toLower ∈ supportedExts ∧
     ((some [] : Option (List Char)) = none ∨ (some [] : Option (List Char)) = some [])) ∧
    processDocument true "doc.txt".data ".txt".data (some "hello".data) 3000
        (some []) (fun _ _ => none) [] =
      .ok ⟨"doc.txt".data, "hello".data, chunkText 3000 "hello".data, []⟩ :=
  ⟨⟨rfl, by decide, Or.inr rfl⟩,
   (process_document_propagation "doc.txt".data ".txt".data (some "hello".data)
      3000 (some []) (fun _ _ => none) []).2.2.2.1 "hello".data rfl (by decide)
      (Or.inr rfl)⟩

/-- Counterexample to C5 as stated: with a missing `API_KEY` (a fatal
construction failure) and a perfectly good input document, `process_document`
does not fail — it returns a normal result whose knowledge-graph sequence is
empty. -/
theorem process_document_counterexample :
    processDocument true "doc.txt".data ".txt".data (some "hello".data) 3000
        none (fun _ _ => none) [] =
      .ok ⟨"doc.txt".data, "hello".data, ["hello".data], []⟩ := by
  rfl

/-! ## C3: per-chunk fault isolation -/

/-- The orchestrator loop's results are the successful outcomes of its
attempt trace, in order. -/
theorem extractLoop_eq_filterMap (f : Nat → List Char → Option KnowledgeGraph)
    (fi : List Char) :
    ∀ (cs : List (List Char)) (i : Nat) (prev : Option (List Char)),
      extractLoop f fi i prev cs =
        (extractAttempts f fi i prev cs).filterMap (fun a => a.result)
  | [], _, _ => rfl
  | c :: cs, i, prev => by
    simp only [extractLoop, extractAttempts]
    cases hf : f i (createEfficientPrompt fi c prev) with
    | some kg =>
      simp [List.filterMap_cons, extractLoop_eq_filterMap f fi cs]
    | none =>
      simp [List.filterMap_cons, extractLoop_eq_filterMap f fi cs]

/-- Every recorded attempt is genuine: the oracle, applied to the recorded
index and prompt, returns the recorded outcome. -/
theorem extractAttempts_sound (f : Nat → List Char → Option KnowledgeGraph)
    (fi : List Char) :
    ∀ (cs : List (List Char)) (i : Nat) (prev : Option (List Char)),
      ∀ a ∈ extractAttempts f fi i prev cs, f a.idx a.prompt = a.result
  | [], _, _ => by simp [extractAttempts]
  | c :: cs, i, prev => by
    simp only [extractAttempts]
    cases hf : f i (createEfficientPrompt fi c prev) with
    | some kg =>
      intro a ha
      rcases List.mem_cons.mp ha with h | h
      · subst h
        exact hf
      · exact extractAttempts_sound f fi cs _ _ a h
    | none =>
      intro a ha
      rcases List.mem_cons.mp ha with h | h
      · subst h
        exact hf
      · exact extractAttempts_sound f fi cs _ _ a h

/-- One attempt is recorded per chunk, indexed consecutively from the start
index. -/
theorem extractAttempts_idx (f : Nat → List Char → Option KnowledgeGraph)
    (fi : List Char) :
    ∀ (cs : List (List Char)) (i : Nat) (prev : Option (List Char)),
      (extractAttempts f fi i prev cs).map (fun a => a.idx) =
        List.range' i cs.length
  | [], _, _ => rfl
  | c :: cs, i, prev => by
    simp only [extractAttempts, List.length_cons, List.range'_succ]
    cases hf : f i (createEfficientPrompt fi c prev) with
    | some kg => simp [extractAttempts_idx f fi cs]
    | none => simp [extractAttempts_idx f fi cs]

/-- When the oracle fails exactly at index `k`, the successful attempts are
exactly those at the other indices, in order. -/
theorem extractAttempts_filter_idx (f : Nat → List Char → Option KnowledgeGraph)
    (fi : List Char) (k : Nat) (hfail : ∀ p, f k p = none)
    (hok : ∀ j p, j ≠ k → (f j p).isSome = true) :
    ∀ (cs : List (List Char)) (i : Nat) (prev : Option (List Char)),
      ((extractAttempts f fi i prev cs).filter
          (fun a => a.result.isSome)).map (fun a => a.idx) =
        (List.range' i cs.length).filter (fun j => decide (j ≠ k))
  | [], _, _ => rfl
  | c :: cs, i, prev => by
    simp only [extractAttempts, List.length_cons, List.range'_succ]
    by_cases hik : i = k
    · rw [hik, hfail (createEfficientPrompt fi c prev)]
      have ih := extractAttempts_filter_idx f fi k hfail hok cs (k + 1) prev
      simp [List.filter_cons, ih]
    · obtain ⟨kg, hkg⟩ :=
        Option.isSome_iff_exists.mp (hok i (createEfficientPrompt fi c prev) hik)
      rw [hkg]
      have ih := extractAttempts_filter_idx f fi k hfail hok cs (i + 1)
        (some (summarizeKeyInfo kg))
      simp [List.filter_cons, ih, hik]

/-- `filterMap` over the results keeps exactly the attempts whose result is
present. -/
theorem length_filterMap_result :
    ∀ l : List Attempt,
      (l.filterMap (fun a => a.result)).length =
        (l.filter (fun a => a.result.isSome)).length
  | [] => rfl
  | a :: l => by
    cases ha : a.result with
    | some kg => simp [List.filterMap_cons, List.filter_cons, ha,
        length_filterMap_result l]
    | none => simp [List.filterMap_cons, List.filter_cons, ha,
        length_filterMap_result l]

/-- Removing one present element from `range n` leaves `n - 1` elements. -/
theorem length_filter_ne_range :
    ∀ n k : Nat, k < n →
      ((List.range n).filter (fun j => decide (j ≠ k))).length = n - 1
  | 0, k, h => absurd h (Nat.not_lt_zero k)
  | n + 1, k, h => by
    rw [List.range_succ, List.filter_append, List.length_append]
    by_cases hk : k = n
    · subst hk
      have h1 : (List.range k).filter (fun j => decide (j ≠ k)) = List.range k :=
        List.filter_eq_self.mpr (fun a ha => by
          have hlt := List.mem_range.mp ha
          simp only [decide_eq_true_eq]
          omega)
      rw [h1]
      simp
    · have hkn : k < n := by omega
      rw [length_filter_ne_range n k hkn]
      have h2 : ([n].filter (fun j => decide (j ≠ k))).length = 1 := by
        simp only [List.filter_cons, List.filter_nil, decide_eq_true_eq]
        rw [if_pos (by omega : n ≠ k)]
        rfl
      rw [h2]
      omega

/-- C3: given a chunk sequence of length N where the extraction call fails for
exactly one chunk index k and succeeds for all others, the orchestrator
returns a result sequence of length N−1; the successful attempts are exactly
the chunks other than k, in order; and every recorded attempt reflects a real
call of the oracle at its index and prompt.  The failure does not abort the
run. -/
theorem extract_fault_isolation (key : List Char)
    (call : Nat → List Char → Option KnowledgeGraph) (fi : List Char)
    (cs : List (List Char)) (k : Nat)
    (hkey : key ≠ []) (hk : k < cs.length)
    (hfail : ∀ p, call k p = none)
    (hok : ∀ j p, j ≠ k → (call j p).isSome = true) :
    (extractKnowledgeGraph (some key) call fi cs).length = cs.length - 1 ∧
    ((extractAttemptsTop (some key) call fi cs).filter
        (fun a => a.result.isSome)).map (fun a => a.idx) =
      (List.range cs.length).filter (fun j => decide (j ≠ k)) ∧
    (∀ a ∈ extractAttemptsTop (some key) call fi cs,
      call a.idx a.prompt = a.result) := by
  have hinit : llmClientInit (some key) call = some ⟨call⟩ := by
    simp [llmClientInit, hkey]
  have htop : extractAttemptsTop (some key) call fi cs =
      extractAttempts call fi 0 none cs := by
    simp [extractAttemptsTop, hinit]
  have hkg : extractKnowledgeGraph (some key) call fi cs =
      extractLoop call fi 0 none cs := by
    simp [extractKnowledgeGraph, hinit]
  have hfilter := extractAttempts_filter_idx call fi k hfail hok cs 0 none
  refine ⟨?_, ?_, ?_⟩
  · rw [hkg, extractLoop_eq_filterMap, length_filterMap_result]
    have hlen := congrArg List.length hfilter
    rw [List.length_map] at hlen
    rw [hlen, ← List.range_eq_range']
    exact length_filter_ne_range cs.length k hk
  · rw [htop, hfilter, List.range_eq_range']
  · rw [htop]
    exact extractAttempts_sound call fi cs 0 none

/-- Witness for C3: three chunks, the call for chunk 1 fails, two results
remain, representing chunks 0 and 2 in order. -/
theorem extract_fault_isolation_witness :
    ("k".data ≠ [] ∧ 1 < (["a".data, "b".data, "c".data] : List (List Char)).length ∧
     (∀ p, oracleSkip1 1 p = none) ∧
     (∀ j p, j ≠ 1 → (oracleSkip1 j p).isSome = true)) ∧
    ((extractKnowledgeGraph (some "k".data) oracleSkip1 []
        ["a".data, "b".data, "c".data]).length =
      (["a".data, "b".data, "c".data] : List (List Char)).length - 1 ∧
    ((extractAttemptsTop (some "k".data) oracleSkip1 []
        ["a".data, "b".data, "c".data]).filter
        (fun a => a.result.isSome)).map (fun a => a.idx) =
      (List.range (["a".data, "b".data, "c".data] : List (List Char)).length).filter
        (fun j => decide (j ≠ 1)) ∧
    (∀ a ∈ extractAttemptsTop (some "k".data) oracleSkip1 []
        ["a".data, "b".data, "c".data],
      oracleSkip1 a.idx a.prompt = a.result)) :=
  ⟨⟨by decide, by decide, fun _ => rfl, fun j _ hj => by simp [oracleSkip1, hj]⟩,
   extract_fault_isolation "k".data oracleSkip1 [] ["a".data, "b".data, "c".data] 1
     (by decide) (by decide) (fun _ => rfl) (fun j _ hj => by simp [oracleSkip1, hj])⟩

/-! ## C8: sequential context dependency of the prompts -/

/-- When every call succeeds, the loop from any start state produces one
result and one attempt per chunk; the first prompt is built from the incoming
context, and the prompt of each later chunk is built from the digest of the
immediately preceding result. -/
theorem extractAttempts_allok (f : Nat → List Char → Option KnowledgeGraph)
    (fi : List Char) (hok : ∀ j p, (f j p).isSome = true) :
    ∀ (cs : List (List Char)) (i : Nat) (prev : Option (List Char)),
      (extractLoop f fi i prev cs).length = cs.length ∧
      (extractAttempts f fi i prev cs).length = cs.length ∧
      (∀ c, cs[0]? = some c →
        ((extractAttempts f fi i prev cs)[0]?).map (fun a => a.prompt) =
          some (createEfficientPrompt fi c prev)) ∧
      (∀ n c, cs[n + 1]? = some c →
        ((extractAttempts f fi i prev cs)[n + 1]?).map (fun a => a.prompt) =
          ((extractLoop f fi i prev cs)[n]?).map
            (fun r => createEfficientPrompt fi c (some (summarizeKeyInfo r))))
  | [], i, prev => by simp [extractLoop, extractAttempts]
  | c :: cs, i, prev => by
    obtain ⟨kg, hkg⟩ :=
      Option.isSome_iff_exists.mp (hok i (createEfficientPrompt fi c prev))
    have ih := extractAttempts_allok f fi hok cs (i + 1) (some (summarizeKeyInfo kg))
    simp only [extractLoop, extractAttempts, hkg]
    refine ⟨by simp [ih.1], by simp [ih.2.1], ?_, ?_⟩
    · intro c0 hc0
      simp only [List.getElem?_cons_zero, Option.some.injEq] at hc0
      subst hc0
      simp
    · intro n c' hc'
      simp only [List.getElem?_cons_succ] at hc'
      cases n with
      | zero =>
        simp only [List.getElem?_cons_succ, List.getElem?_cons_zero, Option.map_some]
        exact ih.2.2.1 c' hc'
      | succ m =>
        simp only [List.getElem?_cons_succ]
        exact ih.2.2.2 m c' hc'

/-- C8 (amended): provided every extraction call succeeds, the prompt built
for chunk 0 contains no prior digest, and for every i the prompt built for
chunk i+1 is built from exactly the digest of chunk i's extraction result
(one result per chunk in order, so result i is chunk i's).  As stated the
claim is false: when a call fails, the stale digest of the most recent
successful chunk is reused — see the counterexample. -/
theorem prompt_sequential_dependency (key : List Char)
    (call : Nat → List Char → Option KnowledgeGraph) (fi : List Char)
    (cs : List (List Char)) (hkey : key ≠ [])
    (hok : ∀ j p, (call j p).isSome = true) :
    (extractKnowledgeGraph (some key) call fi cs).length = cs.length ∧
    (extractAttemptsTop (some key) call fi cs).length = cs.length ∧
    (∀ c, cs[0]? = some c →
      ((extractAttemptsTop (some key) call fi cs)[0]?).map (fun a => a.prompt) =
        some (createEfficientPrompt fi c none)) ∧
    (∀ n c, cs[n + 1]? = some c →
      ((extractAttemptsTop (some key) call fi cs)[n + 1]?).map (fun a => a.prompt) =
        ((extractKnowledgeGraph (some key) call fi cs)[n]?).map
          (fun r => createEfficientPrompt fi c (some (summarizeKeyInfo r)))) := by
  have hinit : llmClientInit (some key) call = some ⟨call⟩ := by
    simp [llmClientInit, hkey]
  have htop : extractAttemptsTop (some key) call fi cs =
      extractAttempts call fi 0 none cs := by
    simp [extractAttemptsTop, hinit]
  have hkg : extractKnowledgeGraph (some key) call fi cs =
      extractLoop call fi 0 none cs := by
    simp [extractKnowledgeGraph, hinit]
  rw [htop, hkg]
  exact extractAttempts_allok call fi hok cs 0 none

/-- Witness for C8: two chunks, all calls succeed. -/
theorem prompt_sequential_dependency_witness :
    ("k".data ≠ [] ∧ (∀ j p, (oracleOk j p).isSome = true)) ∧
    ((extractKnowledgeGraph (some "k".data) oracleOk [] ["a".data, "b".data]).length =
      (["a".data, "b".data] : List (List Char)).length ∧
    (extractAttemptsTop (some "k".data) oracleOk [] ["a".data, "b".data]).length =
      (["a".data, "b".data] : List (List Char)).length ∧
    (∀ c, (["a".data, "b".data] : List (List Char))[0]? = some c →
      ((extractAttemptsTop (some "k".data) oracleOk [] ["a".data, "b".data])[0]?).map
          (fun a => a.prompt) =
        some (createEfficientPrompt [] c none)) ∧
    (∀ n c, (["a".data, "b".data] : List (List Char))[n + 1]? = some c →
      ((extractAttemptsTop (some "k".data) oracleOk [] ["a".data, "b".data])[n + 1]?).map
          (fun a => a.prompt) =
        ((extractKnowledgeGraph (some "k".data) oracleOk [] ["a".data, "b".data])[n]?).map
          (fun r => createEfficientPrompt [] c (some (summarizeKeyInfo r))))) :=
  ⟨⟨by decide, fun _ _ => rfl⟩,
   prompt_sequential_dependency "k".data oracleOk [] ["a".data, "b".data]
     (by decide) (fun _ _ => rfl)⟩

set_option maxRecDepth 8000 in
/-- Counterexample to C8 as stated: when the call for chunk 1 fails, the
prompt built for chunk 2 carries the digest derived from chunk 0's result
(chunk 1 produced none), not a digest derived from chunk 1. -/
theorem prompt_dependency_counterexample :
    ((extractAttemptsTop (some "k".data) oracleFail1 [] chunksABC).map
        (fun a => a.result))[0]? = some (some kgMark) ∧
    ((extractAttemptsTop (some "k".data) oracleFail1 [] chunksABC).map
        (fun a => a.result))[1]? = some none ∧
    ((extractAttemptsTop (some "k".data) oracleFail1 [] chunksABC).map
        (fun a => a.prompt))[2]? =
      some (createEfficientPrompt [] "c".data (some (summarizeKeyInfo kgMark))) := by
  decide

/-! ## String-primitive lemmas -/

/-- `dropWhile` does not lengthen a list. -/
theorem length_dropWhile_le (p : Char → Bool) :
    ∀ l : List Char, (l.dropWhile p).length ≤ l.length
  | [] => Nat.le_refl 0
  | c :: l => by
    rw [List.dropWhile_cons]
    by_cases hc : p c = true
    · rw [if_pos hc]
      exact Nat.le_succ_of_le (length_dropWhile_le p l)
    · rw [if_neg hc]

/-- The head of `dropWhile p l`, when present, fails `p`. -/
theorem dropWhile_head_not (p : Char → Bool) :
    ∀ (l : List Char) (x : Char), (l.dropWhile p).head? = some x → p x = false
  | [], x, h => by simp [List.dropWhile] at h
  | c :: l, x, h => by
    rw [List.dropWhile_cons] at h
    by_cases hc : p c = true
    · rw [if_pos hc] at h
      exact dropWhile_head_not p l x h
    · rw [if_neg hc] at h
      simp only [List.head?_cons, Option.some.injEq] at h
      subst h
      simpa using hc

/-- The last element of `dropWhile p l`, when present, is the last of `l`. -/
theorem dropWhile_getLast? (p : Char → Bool) :
    ∀ (l : List Char) (x : Char),
      (l.dropWhile p).getLast? = some x → l.getLast? = some x
  | [], x, h => by simp [List.dropWhile] at h
  | c :: l, x, h => by
    rw [List.dropWhile_cons] at h
    by_cases hc : p c = true
    · rw [if_pos hc] at h
      have hl := dropWhile_getLast? p l x h
      cases l with
      | nil => simp at hl
      | cons y l' => rw [List.getLast?_cons_cons]; exact hl
    · rw [if_neg hc] at h
      exact h

/-- A stripped string does not start with whitespace. -/
theorem strip_head_not_ws (s : List Char) (x : Char)
    (h : (strip s).head? = some x) : isWs x = false := by
  unfold strip at h
  rw [List.head?_reverse] at h
  have h2 := dropWhile_getLast? isWs _ x h
  rw [List.getLast?_reverse] at h2
  exact dropWhile_head_not isWs _ x h2

/-- A stripped string does not end with whitespace. -/
theorem strip_getLast_not_ws (s : List Char) (x : Char)
    (h : (strip s).getLast? = some x) : isWs x = false := by
  unfold strip at h
  rw [List.getLast?_reverse] at h
  exact dropWhile_head_not isWs _ x h

/-- Stripping does not lengthen a string. -/
theorem strip_length_le (s : List Char) : (strip s).length ≤ s.length := by
  unfold strip
  rw [List.length_reverse]
  calc ((s.dropWhile isWs).reverse.dropWhile isWs).length
      ≤ (s.dropWhile isWs).reverse.length := length_dropWhile_le isWs _
    _ = (s.dropWhile isWs).length := List.length_reverse _
    _ ≤ s.length := length_dropWhile_le isWs s

/-- Filtering by a predicate that rejects whitespace ignores a leading
whitespace run. -/
theorem filter_dropWhile_ws (q : Char → Bool)
    (hq : ∀ c, isWs c = true → q c = false) (l : List Char) :
    (l.dropWhile isWs).filter q = l.filter q := by
  conv_rhs => rw [← List.takeWhile_append_dropWhile isWs l]
  rw [List.filter_append]
  have ht : (l.takeWhile isWs).filter q = [] :=
    List.filter_eq_nil_iff.mpr (fun a ha => by
      simp [hq a (List.mem_takeWhile_imp ha)])
  rw [ht, List.nil_append]

/-- Filtering by a predicate that rejects whitespace is unaffected by
stripping. -/
theorem filter_strip (q : Char → Bool)
    (hq : ∀ c, isWs c = true → q c = false) (s : List Char) :
    (strip s).filter q = s.filter q := by
  unfold strip
  rw [List.filter_reverse, filter_dropWhile_ws q hq, List.filter_reverse,
    List.reverse_reverse, filter_dropWhile_ws q hq]

/-- A string containing a non-whitespace character does not strip to
nothing. -/
theorem strip_ne_nil_of_mem (s : List Char) (x : Char) (hx : x ∈ s)
    (hxw : isWs x = false) : strip s ≠ [] := by
  intro hnil
  have hf := filter_strip (fun c => !isWs c) (by intro c hc; simp [hc]) s
  rw [hnil] at hf
  have hmem : x ∈ s.filter (fun c => !isWs c) :=
    List.mem_filter.mpr ⟨hx, by simp [hxw]⟩
  rw [← hf] at hmem
  simp at hmem

/-- Stripping an already-stripped non-empty string leaves it non-empty. -/
theorem strip_strip_ne_nil (s : List Char) (h : strip s ≠ []) :
    strip (strip s) ≠ [] := by
  have hx : (strip s).head? = some ((strip s).head h) := List.head?_eq_head h
  exact strip_ne_nil_of_mem (strip s) _ (List.head_mem h)
    (strip_head_not_ws s _ hx)

/-! ## Sentence-splitter lemmas -/

/-- `splitTerm` always produces at least one fragment. -/
theorem splitTerm_ne_nil : ∀ s : List Char, splitTerm s ≠ []
  | [] => by simp [splitTerm]
  | c :: rest => by
    simp only [splitTerm]
    by_cases hc : isTerm c = true
    · simp [hc]
    · rw [if_neg hc]
      rcases hrec : splitTerm rest with _ | ⟨h, t⟩
      · simp
      · simp

/-- One fragment more than there are terminator marks. -/
theorem splitTerm_length :
    ∀ s : List Char, (splitTerm s).length = (s.filter isTerm).length + 1
  | [] => by simp [splitTerm]
  | c :: rest => by
    simp only [splitTerm, List.filter_cons]
    by_cases hc : isTerm c = true
    · simp only [hc, if_pos]
      simp [splitTerm_length rest]
    · rw [if_neg hc, if_neg hc]
      rcases hrec : splitTerm rest with _ | ⟨h, t⟩
      · exact absurd hrec (splitTerm_ne_nil rest)
      · have := splitTerm_length rest
        rw [hrec] at this
        simpa using this

/-- Prepending a character to the first fragment prepends it to the
interleaving. -/
theorem joinTerm_cons_cons (c : Char) (h : List Char) (t : List (List Char))
    (ms : List Char) :
    joinTerm ((c :: h) :: t) ms = c :: joinTerm (h :: t) ms := by
  cases ms <;> simp [joinTerm]

/-- The fragments and marks of `splitTerm` reconstruct the source text:
mark `i` is exactly the character that ended fragment `i`. -/
theorem joinTerm_splitTerm :
    ∀ s : List Char, joinTerm (splitTerm s) (s.filter isTerm) = s
  | [] => by simp [splitTerm, joinTerm]
  | c :: rest => by
    simp only [splitTerm, List.filter_cons]
    by_cases hc : isTerm c = true
    · simp only [hc, if_pos]
      have : joinTerm ([] :: splitTerm rest) (c :: rest.filter isTerm) =
          c :: joinTerm (splitTerm rest) (rest.filter isTerm) := by
        rcases hrec : splitTerm rest with _ | ⟨h, t⟩
        · exact absurd hrec (splitTerm_ne_nil rest)
        · simp [joinTerm]
      rw [this, joinTerm_splitTerm rest]
    · rw [if_neg hc, if_neg hc]
      rcases hrec : splitTerm rest with _ | ⟨h, t⟩
      · exact absurd hrec (splitTerm_ne_nil rest)
      · rw [joinTerm_cons_cons]
        have := joinTerm_splitTerm rest
        rw [hrec] at this
        rw [this]

/-- A text without terminators is a single `splitTerm` fragment. -/
theorem splitTerm_no_term :
    ∀ s : List Char, (∀ c ∈ s, isTerm c = false) → splitTerm s = [s]
  | [] => fun _ => by simp [splitTerm]
  | c :: rest => fun h => by
    simp only [splitTerm]
    rw [if_neg (by simp [h c (List.mem_cons_self c rest)])]
    rw [splitTerm_no_term rest (fun x hx => h x (List.mem_cons_of_mem c hx))]

/-- Terminator characters are not whitespace. -/
theorem isTerm_not_ws (c : Char) (h : isTerm c = true) : isWs c = false := by
  unfold isTerm at h
  simp only [Bool.or_eq_true, decide_eq_true_eq] at h
  rcases h with ((((h | h) | h) | h) | h) | h <;> subst h <;> decide

/-- Every element produced by the re-terminating loop is either a stripped
fragment followed by its own terminator mark (the fragment-mark pair occurs at
matching positions of the two input lists), or the final element and the
stripped form of the last fragment — the one with no mark after it. -/
theorem attachMarks_getElem_all :
    ∀ (fs : List (List Char)) (ms : List Char), fs.length = ms.length + 1 →
      ∀ j, j < (attachMarks fs ms).length →
        (∃ fm ∈ fs.zip ms,
          (attachMarks fs ms)[j]? = some (strip fm.1 ++ [fm.2])) ∨
        (j + 1 = (attachMarks fs ms).length ∧
          ∃ f, fs.getLast? = some f ∧ (attachMarks fs ms)[j]? = some (strip f))
  | [], ms, hlen, j, hj => by simp at hlen
  | f :: fs, [], hlen, j, hj => by
    have hfs : fs = [] := by
      simp only [List.length_cons, List.length_nil] at hlen
      exact List.eq_nil_of_length_eq_zero (by omega)
    subst hfs
    by_cases hf : strip f ≠ []
    · right
      simp only [attachMarks, if_pos hf, List.append_nil, List.length_cons,
        List.length_nil] at hj ⊢
      have hj0 : j = 0 := by omega
      subst hj0
      exact ⟨rfl, f, by simp, by simp⟩
    · simp [attachMarks, hf] at hj
  | f :: fs, m :: ms, hlen, j, hj => by
    have hlen' : fs.length = ms.length + 1 := by
      simp only [List.length_cons] at hlen
      omega
    have hfs : fs ≠ [] := by
      intro hc
      rw [hc] at hlen'
      simp at hlen'
    have hlast : (f :: fs).getLast? = fs.getLast? := by
      rcases fs with _ | ⟨g, gs⟩
      · exact absurd rfl hfs
      · exact List.getLast?_cons_cons
    simp only [attachMarks] at hj ⊢
    by_cases hf : strip f ≠ []
    · rw [if_pos hf] at hj ⊢
      cases j with
      | zero =>
        exact Or.inl ⟨(f, m), by simp [List.zip_cons_cons], by simp⟩
      | succ i =>
        simp only [List.singleton_append, List.length_cons] at hj ⊢
        have hj' : i < (attachMarks fs ms).length := by omega
        rcases attachMarks_getElem_all fs ms hlen' i hj' with
          ⟨fm, hfm, hget⟩ | ⟨hlen2, g, hg, hget⟩
        · exact Or.inl ⟨fm,
            by simp [List.zip_cons_cons, List.mem_cons_of_mem, hfm],
            by simpa using hget⟩
        · refine Or.inr ⟨by omega, g, ?_, by simpa using hget⟩
          rw [hlast]
          exact hg
    · rw [if_neg hf] at hj ⊢
      simp only [List.nil_append] at hj ⊢
      rcases attachMarks_getElem_all fs ms hlen' j hj with
        ⟨fm, hfm, hget⟩ | ⟨hlen2, g, hg, hget⟩
      · exact Or.inl ⟨fm,
          by simp [List.zip_cons_cons, List.mem_cons_of_mem, hfm], hget⟩
      · refine Or.inr ⟨hlen2, g, ?_, hget⟩
        rw [hlast]
        exact hg

/-- No element produced by the re-terminating loop is blank (empty or
whitespace-only). -/
theorem attachMarks_strip_ne_nil :
    ∀ (fs : List (List Char)) (ms : List Char), (∀ m ∈ ms, isTerm m = true) →
      ∀ s ∈ attachMarks fs ms, strip s ≠ []
  | [], _, _ => by simp [attachMarks]
  | f :: fs, [], h => by
    simp only [attachMarks]
    intro s hs
    rcases List.mem_append.mp hs with hs | hs
    · by_cases hf : strip f ≠ []
      · rw [if_pos hf] at hs
        simp only [List.mem_singleton] at hs
        subst hs
        exact strip_strip_ne_nil f hf
      · rw [if_neg hf] at hs
        simp at hs
    · exact attachMarks_strip_ne_nil fs [] h s hs
  | f :: fs, m :: ms, h => by
    simp only [attachMarks]
    intro s hs
    rcases List.mem_append.mp hs with hs | hs
    · by_cases hf : strip f ≠ []
      · rw [if_pos hf] at hs
        simp only [List.mem_singleton] at hs
        subst hs
        exact strip_ne_nil_of_mem _ m (by simp)
          (isTerm_not_ws m (h m (List.mem_cons_self m ms)))
      · rw [if_neg hf] at hs
        simp at hs
    · exact attachMarks_strip_ne_nil fs ms
        (fun x hx => h x (List.mem_cons_of_mem m hx)) s hs

/-! ## C9: the sentence splitter's contract -/

/-- C9 (amended): the splitter's fragments and marks reconstruct the source
(so mark i is the character that ended fragment i); every output element —
the final one included — is either a stripped fragment re-terminated with the
punctuation mark that ended it in the source, or the final element and the
stripped form of the trailing fragment that had no terminator, or the
whole-input fallback; no output element is blank unless the whole input strips
to nothing; and an input with no sentence-ending punctuation is returned as a
single element — the *stripped* input when that is non-empty, the input itself
otherwise (not the entire input verbatim, as stated: see the
counterexample). -/
theorem split_sentences_spec (text : List Char) :
    joinTerm (splitTerm text) (text.filter isTerm) = text ∧
    (∀ j, j < (splitSentences text).length →
      (∃ fm ∈ (splitTerm text).zip (text.filter isTerm),
        (splitSentences text)[j]? = some (strip fm.1 ++ [fm.2])) ∨
      (j + 1 = (splitSentences text).length ∧
        ∃ f, (splitTerm text).getLast? = some f ∧
          (splitSentences text)[j]? = some (strip f)) ∨
      (splitSentences text = [text] ∧ j = 0)) ∧
    (strip text ≠ [] → ∀ s ∈ splitSentences text, strip s ≠ []) ∧
    (text.filter isTerm = [] →
      splitSentences text = [if strip text = [] then text else strip text]) := by
  refine ⟨joinTerm_splitTerm text, ?_, ?_, ?_⟩
  · intro j hj
    unfold splitSentences at hj ⊢
    by_cases hcl : attachMarks (splitTerm text) (text.filter isTerm) ≠ []
    · rw [if_pos hcl] at hj ⊢
      rcases attachMarks_getElem_all (splitTerm text) (text.filter isTerm)
        (splitTerm_length text) j hj with h1 | h2
      · exact Or.inl h1
      · exact Or.inr (Or.inl h2)
    · rw [if_neg hcl] at hj ⊢
      refine Or.inr (Or.inr ⟨rfl, ?_⟩)
      simp only [List.length_cons, List.length_nil] at hj
      omega
  · intro ht s hs
    unfold splitSentences at hs
    by_cases hcl : attachMarks (splitTerm text) (text.filter isTerm) ≠ []
    · rw [if_pos hcl] at hs
      exact attachMarks_strip_ne_nil _ _ (fun m hm => List.of_mem_filter hm) s hs
    · rw [if_neg hcl] at hs
      simp only [List.mem_singleton] at hs
      subst hs
      exact ht
  · intro hterm
    unfold splitSentences
    rw [hterm, splitTerm_no_term text (fun c hc => by
      by_contra hcc
      have hcf : c ∈ text.filter isTerm :=
        List.mem_filter.mpr ⟨hc, by simpa using hcc⟩
      rw [hterm] at hcf
      simp at hcf)]
    by_cases hst : strip text = []
    · rw [if_pos hst]
      simp [attachMarks, hst]
    · rw [if_neg hst]
      simp [attachMarks, hst]

/-- Witness for C9: `"abc"` contains no terminator and strips to itself, so
the splitter returns it as the single element; and for `"a.b."` — whose
trailing fragment is blank and dropped — the classification applies at the
*final* output index 1, whose element `"b."` is a marked sentence. -/
theorem split_sentences_spec_witness :
    (("abc".data.filter isTerm = []) ∧
     splitSentences "abc".data =
       [if strip "abc".data = [] then "abc".data else strip "abc".data]) ∧
    (1 < (splitSentences "a.b.".data).length ∧
     ((∃ fm ∈ (splitTerm "a.b.".data).zip ("a.b.".data.filter isTerm),
        (splitSentences "a.b.".data)[1]? = some (strip fm.1 ++ [fm.2])) ∨
      (1 + 1 = (splitSentences "a.b.".data).length ∧
        ∃ f, (splitTerm "a.b.".data).getLast? = some f ∧
          (splitSentences "a.b.".data)[1]? = some (strip f)) ∨
      (splitSentences "a.b.".data = ["a.b.".data] ∧ 1 = 0))) :=
  ⟨⟨by decide, (split_sentences_spec "abc".data).2.2.2 (by decide)⟩,
   by decide, (split_sentences_spec "a.b.".data).2.1 1 (by decide)⟩

/-- Counterexample to C9 as stated: for the punctuation-free input `" abc "`
the splitter returns the stripped string `"abc"`, not the entire input. -/
theorem split_sentences_counterexample :
    splitSentences " abc ".data = ["abc".data] ∧
    splitSentences " abc ".data ≠ [" abc ".data] := by
  decide

/-! ## C10: every multi-path chunk is stripped at its flush point -/

/-- `flushChunks` only ever adds a stripped buffer. -/
theorem flushChunks_stripped (st : ChunkSt)
    (h : ∀ c ∈ st.chunks, ∃ s, c = strip s) :
    ∀ c ∈ flushChunks st, ∃ s, c = strip s := by
  unfold flushChunks
  by_cases hc : st.cur = []
  · rw [if_pos hc]
    exact h
  · rw [if_neg hc]
    intro c hcm
    rcases List.mem_append.mp hcm with hcm | hcm
    · exact h c hcm
    · simp only [List.mem_singleton] at hcm
      exact ⟨st.cur, hcm⟩

/-- `stepSentence` preserves strippedness of the completed chunks. -/
theorem stepSentence_stripped (maxL : Nat) (st : ChunkSt) (s : List Char)
    (h : ∀ c ∈ st.chunks, ∃ u, c = strip u) :
    ∀ c ∈ (stepSentence maxL st s).chunks, ∃ u, c = strip u := by
  unfold stepSentence
  by_cases hle : st.cur.length + s.length ≤ maxL
  · rw [if_pos hle]
    exact h
  · rw [if_neg hle]
    exact flushChunks_stripped st h

/-- Folding `stepSentence` preserves strippedness of the completed chunks. -/
theorem foldl_stepSentence_stripped (maxL : Nat) :
    ∀ (ss : List (List Char)) (st : ChunkSt),
      (∀ c ∈ st.chunks, ∃ u, c = strip u) →
      ∀ c ∈ (ss.foldl (stepSentence maxL) st).chunks, ∃ u, c = strip u
  | [], st, h => h
  | s :: ss, st, h => by
    rw [List.foldl_cons]
    exact foldl_stepSentence_stripped maxL ss _ (stepSentence_stripped maxL st s h)

/-- `stepPara` preserves strippedness of the completed chunks. -/
theorem stepPara_stripped (maxL : Nat) (st : ChunkSt) (p : List Char)
    (h : ∀ c ∈ st.chunks, ∃ u, c = strip u) :
    ∀ c ∈ (stepPara maxL st p).chunks, ∃ u, c = strip u := by
  unfold stepPara
  by_cases h100 : p.length < 100
  · rw [if_pos h100]
    by_cases hle : st.cur.length + p.length ≤ maxL
    · rw [if_pos hle]
      exact h
    · rw [if_neg hle]
      exact flushChunks_stripped st h
  · rw [if_neg h100]
    by_cases hov : maxL < p.length
    · rw [if_pos hov]
      exact foldl_stepSentence_stripped maxL (splitSentences p) st h
    · rw [if_neg hov]
      by_cases hle : st.cur.length + p.length ≤ maxL
      · rw [if_pos hle]
        exact h
      · rw [if_neg hle]
        exact flushChunks_stripped st h

/-- Folding `stepPara` preserves strippedness of the completed chunks. -/
theorem foldl_stepPara_stripped (maxL : Nat) :
    ∀ (ps : List (List Char)) (st : ChunkSt),
      (∀ c ∈ st.chunks, ∃ u, c = strip u) →
      ∀ c ∈ (ps.foldl (stepPara maxL) st).chunks, ∃ u, c = strip u
  | [], st, h => h
  | p :: ps, st, h => by
    rw [List.foldl_cons]
    exact foldl_stepPara_stripped maxL ps _ (stepPara_stripped maxL st p h)

/-- C10: on the multi-chunk path (text longer than the maximum) every emitted
chunk is stripped at its flush point — it neither begins nor ends with a
whitespace character; the short-circuit path returns the input text
unmodified as the single chunk. -/
theorem chunk_strip_invariant (maxL : Nat) (text : List Char) :
    (text.length ≤ maxL → chunkText maxL text = [text]) ∧
    (maxL < text.length → ∀ c ∈ chunkText maxL text,
      (∀ x, c.head? = some x → isWs x = false) ∧
      (∀ x, c.getLast? = some x → isWs x = false)) := by
  constructor
  · intro hle
    unfold chunkText
    rw [if_pos hle]
  · intro hgt c hc
    unfold chunkText at hc
    rw [if_neg (by omega)] at hc
    obtain ⟨u, hu⟩ := flushChunks_stripped _
      (foldl_stepPara_stripped maxL (splitParas text) ⟨[], []⟩ (by simp)) c hc
    subst hu
    exact ⟨strip_head_not_ws u, strip_getLast_not_ws u⟩

/-- Witness for C10 at maximum 3 and text `"ab\n\ncd"`: both emitted chunks
are stripped. -/
theorem chunk_strip_invariant_witness :
    (3 < "ab\n\ncd".data.length ∧ "ab".data ∈ chunkText 3 "ab\n\ncd".data) ∧
    ((∀ x, "ab".data.head? = some x → isWs x = false) ∧
     (∀ x, "ab".data.getLast? = some x → isWs x = false)) :=
  ⟨⟨by decide, by decide⟩,
   (chunk_strip_invariant 3 "ab\n\ncd".data).2 (by decide) "ab".data (by decide)⟩

/-! ## C1: the chunk-size bound -/

/-- Flushing under the size invariant only emits chunks that are within
`maxL + 2` or are stripped sentences of an oversized paragraph. -/
theorem flushChunks_size (maxL : Nat) (paras : List (List Char)) (st : ChunkSt)
    (h : ChunkSizeInv maxL paras st) :
    ∀ c ∈ flushChunks st, c.length ≤ maxL + 2 ∨
      ∃ p ∈ paras, maxL < p.length ∧ ∃ s ∈ splitSentences p, c = strip s := by
  unfold flushChunks
  by_cases hc : st.cur = []
  · rw [if_pos hc]
    exact h.1
  · rw [if_neg hc]
    intro c hcm
    rcases List.mem_append.mp hcm with hcm | hcm
    · exact h.1 c hcm
    · simp only [List.mem_singleton] at hcm
      subst hcm
      rcases h.2 with hlen | ⟨p, hp, hpl, hs⟩
      · exact Or.inl (le_trans (strip_length_le _) hlen)
      · exact Or.inr ⟨p, hp, hpl, st.cur, hs, rfl⟩

/-- `stepSentence` preserves the size invariant when fed a sentence of an
oversized paragraph. -/
theorem stepSentence_size (maxL : Nat) (paras : List (List Char))
    (P : List Char) (hP : P ∈ paras) (hPl : maxL < P.length) (st : ChunkSt)
    (s : List Char) (hs : s ∈ splitSentences P) (h : ChunkSizeInv maxL paras st) :
    ChunkSizeInv maxL paras (stepSentence maxL st s) := by
  unfold stepSentence
  by_cases hle : st.cur.length + s.length ≤ maxL
  · rw [if_pos hle]
    refine ⟨h.1, Or.inl ?_⟩
    simp only [List.length_append, List.length_cons]
    omega
  · rw [if_neg hle]
    exact ⟨flushChunks_size maxL paras st h, Or.inr ⟨P, hP, hPl, hs⟩⟩

/-- Folding `stepSentence` over sentences of an oversized paragraph preserves
the size invariant. -/
theorem foldl_stepSentence_size (maxL : Nat) (paras : List (List Char))
    (P : List Char) (hP : P ∈ paras) (hPl : maxL < P.length) :
    ∀ (ss : List (List Char)), (∀ s ∈ ss, s ∈ splitSentences P) →
      ∀ st : ChunkSt, ChunkSizeInv maxL paras st →
        ChunkSizeInv maxL paras (ss.foldl (stepSentence maxL) st)
  | [], _, st, h => h
  | s :: ss, hss, st, h => by
    rw [List.foldl_cons]
    exact foldl_stepSentence_size maxL paras P hP hPl ss
      (fun x hx => hss x (List.mem_cons_of_mem s hx)) _
      (stepSentence_size maxL paras P hP hPl st s
        (hss s (List.mem_cons_self s ss)) h)

/-- `stepPara` preserves the size invariant (for a merge threshold within the
maximum). -/
theorem stepPara_size (maxL : Nat) (paras : List (List Char))
    (h100 : 100 ≤ maxL) (p : List Char) (hp : p ∈ paras) (st : ChunkSt)
    (h : ChunkSizeInv maxL paras st) :
    ChunkSizeInv maxL paras (stepPara maxL st p) := by
  unfold stepPara
  by_cases hshort : p.length < 100
  · rw [if_pos hshort]
    by_cases hle : st.cur.length + p.length ≤ maxL
    · rw [if_pos hle]
      refine ⟨h.1, Or.inl ?_⟩
      simp only [List.length_append, List.length_cons]
      omega
    · rw [if_neg hle]
      exact ⟨flushChunks_size maxL paras st h,
        Or.inl (show p.length ≤ maxL + 2 by omega)⟩
  · rw [if_neg hshort]
    by_cases hov : maxL < p.length
    · rw [if_pos hov]
      exact foldl_stepSentence_size maxL paras p hp hov (splitSentences p)
        (fun s hs => hs) st h
    · rw [if_neg hov]
      by_cases hle : st.cur.length + p.length ≤ maxL
      · rw [if_pos hle]
        refine ⟨h.1, Or.inl ?_⟩
        simp only [List.length_append, List.length_cons]
        omega
      · rw [if_neg hle]
        exact ⟨flushChunks_size maxL paras st h,
          Or.inl (show p.length ≤ maxL + 2 by omega)⟩

/-- Folding `stepPara` over the text's paragraphs preserves the size
invariant. -/
theorem foldl_stepPara_size (maxL : Nat) (paras : List (List Char))
    (h100 : 100 ≤ maxL) :
    ∀ (ps : List (List Char)), (∀ p ∈ ps, p ∈ paras) →
      ∀ st : ChunkSt, ChunkSizeInv maxL paras st →
        ChunkSizeInv maxL paras (ps.foldl (stepPara maxL) st)
  | [], _, st, h => h
  | p :: ps, hps, st, h => by
    rw [List.foldl_cons]
    exact foldl_stepPara_size maxL paras h100 ps
      (fun x hx => hps x (List.mem_cons_of_mem p hx)) _
      (stepPara_size maxL paras h100 p (hps p (List.mem_cons_self p ps)) st h)

/-- C1 (amended): for a configured maximum of at least the 100-character merge
threshold, every chunk has length at most `maximum + 2` — the blank-line
separator's two characters escape the size check — except a chunk that is the
stripped form of a single sentence of a paragraph longer than the maximum
(the unsplittable-unit exception).  As stated (bound `maximum` exactly, the
oversized sentence the sole exception) the claim is false: see the
counterexample. -/
theorem chunk_size_bound (maxL : Nat) (text : List Char) (h100 : 100 ≤ maxL) :
    ∀ c ∈ chunkText maxL text, c.length ≤ maxL + 2 ∨
      ∃ p ∈ splitParas text, maxL < p.length ∧
        ∃ s ∈ splitSentences p, c = strip s := by
  intro c hc
  unfold chunkText at hc
  by_cases hle : text.length ≤ maxL
  · rw [if_pos hle] at hc
    simp only [List.mem_singleton] at hc
    subst hc
    exact Or.inl (by omega)
  · rw [if_neg hle] at hc
    exact flushChunks_size maxL (splitParas text) _
      (foldl_stepPara_size maxL (splitParas text) h100 (splitParas text)
        (fun p hp => hp) ⟨[], []⟩ ⟨by simp, Or.inl (by simp)⟩) c hc

set_option maxRecDepth 2000 in
/-- Witness for C1: a single 101-character punctuation-free paragraph at
maximum 100 is emitted whole, within the `maximum + 2` slack. -/
theorem chunk_size_bound_witness :
    (100 ≤ 100 ∧ List.replicate 101 'a' ∈ chunkText 100 (List.replicate 101 'a')) ∧
    ((List.replicate 101 'a' : List Char).length ≤ 100 + 2 ∨
      ∃ p ∈ splitParas (List.replicate 101 'a'), 100 < p.length ∧
        ∃ s ∈ splitSentences p, List.replicate 101 'a' = strip s) :=
  ⟨⟨by decide, by decide⟩,
   chunk_size_bound 100 (List.replicate 101 'a') (by decide)
     (List.replicate 101 'a') (by decide)⟩

/-- Counterexample to C1 as stated: at maximum 10, the input `cexSize`
produces the chunk `"aaaaa\n\nbbbbb"` of length 12 > 10, which is not a
sentence of any paragraph at all (let alone an oversized one) — the blank-line
separator is not counted by the size check. -/
theorem chunk_size_counterexample :
    chunkText 10 cexSize = ["cccccccccc".data, "aaaaa\n\nbbbbb".data] ∧
    ∃ c ∈ chunkText 10 cexSize, ¬ (c.length ≤ 10 ∨
      ∃ p ∈ splitParas cexSize, ∃ s ∈ splitSentences p,
        (c = s ∨ c = strip s) ∧ 10 < s.length) := by
  decide

/-! ## C2: reconstruction of the text from the chunks -/

/-- The fragments of `splitTerm` carry all non-terminator content. -/
theorem filter_flatten_splitTerm (q : Char → Bool)
    (hterm : ∀ c, isTerm c = true → q c = false) :
    ∀ s : List Char, ((splitTerm s).flatten).filter q = s.filter q
  | [] => by simp [splitTerm]
  | c :: rest => by
    simp only [splitTerm]
    by_cases hc : isTerm c = true
    · rw [if_pos hc]
      simp only [List.flatten_cons, List.nil_append, List.filter_cons]
      rw [if_neg (by simp [hterm c hc]), filter_flatten_splitTerm q hterm rest]
    · rw [if_neg hc]
      rcases hrec : splitTerm rest with _ | ⟨h, t⟩
      · exact absurd hrec (splitTerm_ne_nil rest)
      · have hrc := filter_flatten_splitTerm q hterm rest
        rw [hrec] at hrc
        simp only [List.flatten_cons] at hrc ⊢
        simp only [List.cons_append, List.filter_cons, hrc]

/-- The re-terminating loop carries all whitespace-free, terminator-free
content of its fragments. -/
theorem filter_flatten_attachMarks (q : Char → Bool)
    (hq : ∀ c, isWs c = true → q c = false)
    (hterm : ∀ c, isTerm c = true → q c = false) :
    ∀ (fs : List (List Char)) (ms : List Char), (∀ m ∈ ms, isTerm m = true) →
      ((attachMarks fs ms).flatten).filter q = (fs.flatten).filter q
  | [], ms, _ => by simp [attachMarks]
  | f :: fs, [], h => by
    simp only [attachMarks, List.flatten_append, List.flatten_cons,
      List.filter_append]
    have hgrp :
        (((if strip f ≠ [] then [strip f] else []) : List (List Char)).flatten).filter q
          = f.filter q := by
      by_cases hf : strip f ≠ []
      · rw [if_pos hf]
        simp only [List.flatten_cons, List.flatten_nil, List.append_nil]
        exact filter_strip q hq f
      · rw [if_neg hf]
        push_neg at hf
        have hfs := filter_strip q hq f
        rw [hf] at hfs
        simpa using hfs.symm
    rw [hgrp, filter_flatten_attachMarks q hq hterm fs [] (by simp)]
  | f :: fs, m :: ms, h => by
    simp only [attachMarks, List.flatten_append, List.flatten_cons,
      List.filter_append]
    have hm : q m = false := hterm m (h m (List.mem_cons_self m ms))
    have hgrp :
        (((if strip f ≠ [] then [strip f ++ [m]] else []) : List (List Char)).flatten).filter q
          = f.filter q := by
      by_cases hf : strip f ≠ []
      · rw [if_pos hf]
        simp only [List.flatten_cons, List.flatten_nil, List.append_nil,
          List.filter_append]
        rw [filter_strip q hq f]
        simp [hm]
      · rw [if_neg hf]
        push_neg at hf
        have hfs := filter_strip q hq f
        rw [hf] at hfs
        simpa using hfs.symm
    rw [hgrp, filter_flatten_attachMarks q hq hterm fs ms
      (fun x hx => h x (List.mem_cons_of_mem m hx))]

/-- The sentence splitter carries all whitespace-free, terminator-free content
of its input. -/
theorem filter_flatten_splitSentences (q : Char → Bool)
    (hq : ∀ c, isWs c = true → q c = false)
    (hterm : ∀ c, isTerm c = true → q c = false) (p : List Char) :
    ((splitSentences p).flatten).filter q = p.filter q := by
  unfold splitSentences
  by_cases hcl : attachMarks (splitTerm p) (p.filter isTerm) ≠ []
  · rw [if_pos hcl,
      filter_flatten_attachMarks q hq hterm _ _ (fun m hm => List.of_mem_filter hm),
      filter_flatten_splitTerm q hterm p]
  · rw [if_neg hcl]
    simp

/-- `splitSep2` always produces at least one fragment. -/
theorem splitSep2_ne_nil (a b : Char) : ∀ s : List Char, splitSep2 a b s ≠ []
  | [] => by simp [splitSep2]
  | [c] => by simp [splitSep2]
  | c :: d :: rest => by
    simp only [splitSep2]
    by_cases hcd : c = a ∧ d = b
    · simp [hcd]
    · rw [if_neg hcd]
      rcases hrec : splitSep2 a b (d :: rest) with _ | ⟨h, t⟩
      · simp
      · simp

/-- Prepending a character to the first paragraph prepends it to the
interleaving. -/
theorem joinParas_cons_cons (c : Char) (h : List Char) (t : List (List Char)) :
    joinParas ((c :: h) :: t) = c :: joinParas (h :: t) := by
  cases t <;> simp [joinParas]

/-- The paragraphs of `splitParas`, re-joined with the blank-line separator,
reconstruct the text. -/
theorem joinParas_splitParas : ∀ s : List Char, joinParas (splitParas s) = s
  | [] => by simp [splitParas, splitSep2, joinParas]
  | [c] => by simp [splitParas, splitSep2, joinParas]
  | c :: d :: rest => by
    unfold splitParas splitSep2
    by_cases hcd : c = '\n' ∧ d = '\n'
    · rw [if_pos hcd]
      rcases hrec : splitSep2 '\n' '\n' rest with _ | ⟨h, t⟩
      · exact absurd hrec (splitSep2_ne_nil '\n' '\n' rest)
      · have ih := joinParas_splitParas rest
        unfold splitParas at ih
        rw [hrec] at ih
        simp only [joinParas, List.nil_append]
        rw [ih, hcd.1, hcd.2]
    · rw [if_neg hcd]
      rcases hrec : splitSep2 '\n' '\n' (d :: rest) with _ | ⟨h, t⟩
      · exact absurd hrec (splitSep2_ne_nil '\n' '\n' (d :: rest))
      · have ih := joinParas_splitParas (d :: rest)
        unfold splitParas at ih
        rw [hrec] at ih
        rw [joinParas_cons_cons, ih]

/-- Joining paragraphs with the whitespace separator adds no content. -/
theorem filter_joinParas (q : Char → Bool)
    (hq : ∀ c, isWs c = true → q c = false) :
    ∀ ps : List (List Char), (joinParas ps).filter q = (ps.flatten).filter q
  | [] => by simp [joinParas]
  | [p] => by simp [joinParas]
  | p :: p' :: ps => by
    have hn : q '\n' = false := hq '\n' (by decide)
    simp only [joinParas, List.flatten_cons, List.filter_append,
      List.filter_cons, hn]
    rw [filter_joinParas q hq (p' :: ps)]
    simp [List.flatten_cons, List.filter_append]

/-- Flushing moves the buffer's content onto the completed chunks. -/
theorem flushChunks_filter (q : Char → Bool)
    (hq : ∀ c, isWs c = true → q c = false) (st : ChunkSt) :
    ((flushChunks st).flatten).filter q =
      (st.chunks.flatten).filter q ++ st.cur.filter q := by
  unfold flushChunks
  by_cases hc : st.cur = []
  · rw [if_pos hc, hc]
    simp
  · rw [if_neg hc]
    simp only [List.flatten_append, List.flatten_cons, List.flatten_nil,
      List.append_nil, List.filter_append]
    rw [filter_strip q hq st.cur]

/-- `stepSentence` appends exactly the sentence's content to the state's
content. -/
theorem stepSentence_filter (q : Char → Bool)
    (hq : ∀ c, isWs c = true → q c = false) (maxL : Nat) (st : ChunkSt)
    (s : List Char) :
    (((stepSentence maxL st s).chunks).flatten).filter q ++
        ((stepSentence maxL st s).cur).filter q =
      ((st.chunks.flatten).filter q ++ st.cur.filter q) ++ s.filter q := by
  unfold stepSentence
  have hsp : q ' ' = false := hq ' ' (by decide)
  by_cases hle : st.cur.length + s.length ≤ maxL
  · rw [if_pos hle]
    simp [List.filter_append, List.filter_cons, hsp]
  · rw [if_neg hle]
    simp only
    rw [flushChunks_filter q hq st]

/-- Folding `stepSentence` appends exactly the sentences' content. -/
theorem foldl_stepSentence_filter (q : Char → Bool)
    (hq : ∀ c, isWs c = true → q c = false) (maxL : Nat) :
    ∀ (ss : List (List Char)) (st : ChunkSt),
      (((ss.foldl (stepSentence maxL) st).chunks).flatten).filter q ++
          ((ss.foldl (stepSentence maxL) st).cur).filter q =
        ((st.chunks.flatten).filter q ++ st.cur.filter q) ++
          (ss.flatten).filter q
  | [], st => by simp
  | s :: ss, st => by
    rw [List.foldl_cons]
    rw [foldl_stepSentence_filter q hq maxL ss (stepSentence maxL st s)]
    rw [stepSentence_filter q hq maxL st s]
    simp [List.flatten_cons, List.filter_append, List.append_assoc]

/-- `stepPara` appends exactly the paragraph's content to the state's
content. -/
theorem stepPara_filter (q : Char → Bool)
    (hq : ∀ c, isWs c = true → q c = false)
    (hterm : ∀ c, isTerm c = true → q c = false) (maxL : Nat) (st : ChunkSt)
    (p : List Char) :
    (((stepPara maxL st p).chunks).flatten).filter q ++
        ((stepPara maxL st p).cur).filter q =
      ((st.chunks.flatten).filter q ++ st.cur.filter q) ++ p.filter q := by
  unfold stepPara
  have hn : q '\n' = false := hq '\n' (by decide)
  by_cases hshort : p.length < 100
  · rw [if_pos hshort]
    by_cases hle : st.cur.length + p.length ≤ maxL
    · rw [if_pos hle]
      simp [List.filter_append, List.filter_cons, hn]
    · rw [if_neg hle]
      simp only
      rw [flushChunks_filter q hq st]
  · rw [if_neg hshort]
    by_cases hov : maxL < p.length
    · rw [if_pos hov]
      rw [foldl_stepSentence_filter q hq maxL (splitSentences p) st]
      rw [filter_flatten_splitSentences q hq hterm p]
    · rw [if_neg hov]
      by_cases hle : st.cur.length + p.length ≤ maxL
      · rw [if_pos hle]
        simp [List.filter_append, List.filter_cons, hn]
      · rw [if_neg hle]
        simp only
        rw [flushChunks_filter q hq st]

/-- Folding `stepPara` appends exactly the paragraphs' content. -/
theorem foldl_stepPara_filter (q : Char → Bool)
    (hq : ∀ c, isWs c = true → q c = false)
    (hterm : ∀ c, isTerm c = true → q c = false) (maxL : Nat) :
    ∀ (ps : List (List Char)) (st : ChunkSt),
      (((ps.foldl (stepPara maxL) st).chunks).flatten).filter q ++
          ((ps.foldl (stepPara maxL) st).cur).filter q =
        ((st.chunks.flatten).filter q ++ st.cur.filter q) ++
          (ps.flatten).filter q
  | [], st => by simp
  | p :: ps, st => by
    rw [List.foldl_cons]
    rw [foldl_stepPara_filter q hq hterm maxL ps (stepPara maxL st p)]
    rw [stepPara_filter q hq hterm maxL st p]
    simp [List.flatten_cons, List.filter_append, List.append_assoc]

/-- C2 (amended): concatenating the chunks in order reconstructs the original
text's content exactly once — no loss, no duplication, no reordering — after
erasing whitespace (normalized at flush boundaries) *and* sentence-terminator
characters.  Terminators themselves can be lost: the splitter drops the
terminator of an empty or whitespace-only fragment (see the counterexample),
so reconstruction up to whitespace alone, as stated, fails. -/
theorem chunk_reconstruction (maxL : Nat) (text : List Char) :
    ((chunkText maxL text).flatten).filter keepChar = text.filter keepChar := by
  have hq : ∀ c, isWs c = true → keepChar c = false := by
    intro c hc
    simp [keepChar, hc]
  have hterm : ∀ c, isTerm c = true → keepChar c = false := by
    intro c hc
    simp [keepChar, hc]
  unfold chunkText
  by_cases hle : text.length ≤ maxL
  · rw [if_pos hle]
    simp
  · rw [if_neg hle]
    rw [flushChunks_filter keepChar hq]
    rw [foldl_stepPara_filter keepChar hq hterm maxL (splitParas text) ⟨[], []⟩]
    simp only [List.flatten_nil, List.filter_nil, List.nil_append]
    rw [← filter_joinParas keepChar hq (splitParas text), joinParas_splitParas]

set_option maxRecDepth 4000 in
/-- Counterexample to C2 as stated: chunking `cexRecon` (one oversized
paragraph containing `"aa.."`) loses the second period — a non-whitespace
character — so the concatenation differs from the original even after erasing
all whitespace. -/
theorem chunk_reconstruction_counterexample :
    ((chunkText 100 cexRecon).flatten).filter (fun c => !isWs c) ≠
      cexRecon.filter (fun c => !isWs c) := by
  decide
